import Mathlib

/-!
Verification of the k-d tree library (kdtree.h, point.h).

The C++ code is a template `Kdtree<N>` over `Point<N>`: a binary tree in
which every node owns one point and a split axis, grown by `insert`
(descend left on strictly smaller coordinate at the node's split axis,
right otherwise, cycling axes by `(axis + 1) % N`), and queried by
`get_nearby_points` (radius range query with hyperplane pruning).

Embedding choices:
* `float` coordinates and radii are modelled as exact rationals `ℚ`;
* a `Kdtree<N>*` pointer is a value of the inductive type `Kdtree`,
  where the constructor `nil` is the null pointer and `node` is a node
  with its two child pointers, stored point and split axis;
* `std::list<Point<N>>` results are Lean `List Point`;
* the template parameter `N` is an explicit `ℕ` argument.
-/

/-- `Point<N>` from point.h: an identifier plus a coordinate vector.
Coordinates are kept as a list; `operator[]` becomes `coordinate`. -/
structure Point where
  id : Int
  coords : List ℚ
deriving DecidableEq, Repr

namespace Point

/-- `Point<N>::operator[](axis)`: coordinate access. Out-of-range access,
which is undefined behaviour in C++, defaults to 0 here; all theorems about
well-formed uses only ever access axes below the dimension. -/
def coordinate (p : Point) (ax : ℕ) : ℚ :=
  p.coords.getD ax 0

end Point

/-- A `Kdtree<N>*` pointer value: either null (`nil`) or a node owning its
two child pointers, the stored `split_point` and the `split_axis`
(kdtree.h, private members). -/
inductive Kdtree where
  | nil : Kdtree
  | node (left right : Kdtree) (split_point : Point) (split_axis : ℕ) : Kdtree
deriving DecidableEq, Repr

namespace Kdtree

/-- `Kdtree<N>::split_value()`: the stored point's coordinate on the
node's split axis (kdtree.h lines 48-52). -/
def split_value (split_point : Point) (split_axis : ℕ) : ℚ :=
  split_point.coordinate split_axis

/-- `Kdtree<N>::falls_on_left_child(point)` (kdtree.h lines 104-108):
whether `point` is strictly below the node's split value on the split axis. -/
def falls_on_left_child (split_point : Point) (split_axis : ℕ) (p : Point) : Bool :=
  decide (p.coordinate split_axis < split_value split_point split_axis)

/-- The loop of `Kdtree<N>::is_neighbor` (kdtree.h lines 90-99): the sum of
squared coordinate differences over dimensions `0 .. N-1`. -/
def squared_distance (N : ℕ) (split_point p : Point) : ℚ :=
  Finset.sum (Finset.range N) fun i =>
    (split_point.coordinate i - p.coordinate i) *
      (split_point.coordinate i - p.coordinate i)

/-- `Kdtree<N>::is_neighbor(point, radius)` (kdtree.h lines 90-102):
squared distance compared to `radius * radius` with `<=`. -/
def is_neighbor (N : ℕ) (split_point p : Point) (radius : ℚ) : Bool :=
  decide (squared_distance N split_point p ≤ radius * radius)

/-- `Kdtree<N>::intersects_line(point, radius)` (kdtree.h lines 81-88):
whether the query sphere can reach the node's splitting hyperplane. -/
def intersects_line (split_point : Point) (split_axis : ℕ) (p : Point) (radius : ℚ) : Bool :=
  decide (p.coordinate split_axis - radius ≤ split_value split_point split_axis ∧
    split_value split_point split_axis ≤ p.coordinate split_axis + radius)

/-- `Kdtree<N>::insert(new_point)` (kdtree.h lines 54-79), written over
pointer values: inserting into a null slot allocates the new leaf there
with the pending split axis `axn` (this is the `new Kdtree<N>(new_point,
new_split_axis)` branch), and inserting into a node recurses into the
child chosen by `falls_on_left_child`, passing `(split_axis + 1) % N` as
the axis the new leaf would get if that child slot is empty. -/
def insertAt (N : ℕ) (p : Point) (axn : ℕ) : Kdtree → Kdtree
  | nil => node nil nil p axn
  | node l r sp ax =>
    if falls_on_left_child sp ax p then
      node (insertAt N p ((ax + 1) % N) l) r sp ax
    else
      node l (insertAt N p ((ax + 1) % N) r) sp ax

/-- The public `insert` entry point, only ever called on a non-null tree
(the C++ object), for which the pending-axis argument is irrelevant. -/
def insert (N : ℕ) (p : Point) (t : Kdtree) : Kdtree :=
  insertAt N p 0 t

/-- `Kdtree<N>::get_nearby_points(point, radius)` (kdtree.h lines 111-135):
the node's own point if it is a neighbor, then the recursive results from
the left and right children when the pruning test allows the visit. The
C++ null-pointer guards `left && ...` / `right && ...` correspond to the
`nil` case returning the empty list. -/
def get_nearby_points (N : ℕ) (p : Point) (radius : ℚ) : Kdtree → List Point
  | nil => []
  | node l r sp ax =>
    (if is_neighbor N sp p radius then [sp] else []) ++
    (if intersects_line sp ax p radius || falls_on_left_child sp ax p then
      get_nearby_points N p radius l else []) ++
    (if intersects_line sp ax p radius || !falls_on_left_child sp ax p then
      get_nearby_points N p radius r else [])

/-- `get_nearby_points` again, but also threading the tree through the
call as C++ state: every visited node is rebuilt from what the recursive
calls return, every unvisited subtree is kept as it was. Its second
component is the tree as the (const) query leaves it. -/
def get_nearby_points_st (N : ℕ) (p : Point) (radius : ℚ) : Kdtree → List Point × Kdtree
  | nil => ([], nil)
  | node l r sp ax =>
    ((if is_neighbor N sp p radius then [sp] else []) ++
      (if intersects_line sp ax p radius || falls_on_left_child sp ax p then
        (get_nearby_points_st N p radius l).1 else []) ++
      (if intersects_line sp ax p radius || !falls_on_left_child sp ax p then
        (get_nearby_points_st N p radius r).1 else []),
      node
        (if intersects_line sp ax p radius || falls_on_left_child sp ax p then
          (get_nearby_points_st N p radius l).2 else l)
        (if intersects_line sp ax p radius || !falls_on_left_child sp ax p then
          (get_nearby_points_st N p radius r).2 else r)
        sp ax)

/-- All points stored in a (sub)tree, in depth-first preorder: the node's
own point, then the left subtree, then the right subtree — the same order
in which `get_nearby_points` emits matches. -/
def points : Kdtree → List Point
  | nil => []
  | node l r sp _ => sp :: (points l ++ points r)

/-- Number of nodes of a (sub)tree. -/
def size : Kdtree → ℕ
  | nil => 0
  | node l r _ _ => size l + size r + 1

/-- Building a tree the only way the API allows: the first point through
the constructor `Kdtree(point)` (split axis defaulting to 0), every later
point through `insert`. -/
def buildTree (N : ℕ) (p0 : Point) (ps : List Point) : Kdtree :=
  ps.foldl (fun t p => insert N p t) (node nil nil p0 0)

/-- The partition invariant of a node (spec section 3): everything stored
in the left subtree is strictly below the node's point on the node's split
axis, everything in the right subtree is at or above it. -/
def PartInv : Kdtree → Prop
  | nil => True
  | node l r sp ax =>
    (∀ x ∈ points l, x.coordinate ax < sp.coordinate ax) ∧
    (∀ x ∈ points r, sp.coordinate ax ≤ x.coordinate ax) ∧
    PartInv l ∧ PartInv r

/-- Every split axis in the tree is a legal dimension index, below `N`. -/
def AxisBound (N : ℕ) : Kdtree → Prop
  | nil => True
  | node l r _ ax => ax < N ∧ AxisBound N l ∧ AxisBound N r

/-- The root of a subtree, if it is a node, carries split axis
`(pax + 1) % N` where `pax` is its parent's split axis. -/
def headAxisOk (N pax : ℕ) : Kdtree → Prop
  | nil => True
  | node _ _ _ ax => ax = (pax + 1) % N

/-- The axis-cycling invariant (spec section 3): every non-root node's
split axis is its parent's split axis plus one, modulo `N`. -/
def AxisCycle (N : ℕ) : Kdtree → Prop
  | nil => True
  | node l r _ ax =>
    headAxisOk N ax l ∧ headAxisOk N ax r ∧ AxisCycle N l ∧ AxisCycle N r

end Kdtree

namespace Kdtree

theorem points_insertAt_perm (N : ℕ) (p : Point) (axn : ℕ) (t : Kdtree) :
    (insertAt N p axn t).points.Perm (p :: t.points) := by
  induction t generalizing axn with
  | nil => simp [insertAt, points]
  | node l r sp ax ihl ihr =>
    simp only [insertAt]
    by_cases h : falls_on_left_child sp ax p = true
    · rw [if_pos h]
      simp only [points]
      refine List.Perm.trans (List.Perm.cons sp ((ihl _).append_right _)) ?_
      exact List.Perm.swap p sp _
    · rw [if_neg h]
      simp only [points]
      refine List.Perm.trans (List.Perm.cons sp (List.Perm.append_left _ (ihr _))) ?_
      refine List.Perm.trans (List.Perm.cons sp List.perm_middle) ?_
      exact List.Perm.swap p sp _

theorem mem_points_insertAt {N : ℕ} {p : Point} {axn : ℕ} {t : Kdtree} {x : Point}
    (hx : x ∈ (insertAt N p axn t).points) : x = p ∨ x ∈ t.points := by
  have := (points_insertAt_perm N p axn t).mem_iff.mp hx
  simpa using this

theorem size_insertAt (N : ℕ) (p : Point) (axn : ℕ) (t : Kdtree) :
    (insertAt N p axn t).size = t.size + 1 := by
  induction t generalizing axn with
  | nil => simp [insertAt, size]
  | node l r sp ax ihl ihr =>
    simp only [insertAt]
    by_cases h : falls_on_left_child sp ax p = true
    · rw [if_pos h]; simp only [size, ihl]; omega
    · rw [if_neg h]; simp only [size, ihr]; omega

theorem partInv_insertAt (N : ℕ) (p : Point) (axn : ℕ) (t : Kdtree)
    (ht : PartInv t) : PartInv (insertAt N p axn t) := by
  induction t generalizing axn with
  | nil => simp [insertAt, PartInv, points]
  | node l r sp ax ihl ihr =>
    obtain ⟨hL, hR, hl, hr⟩ := ht
    simp only [insertAt]
    by_cases h : falls_on_left_child sp ax p = true
    · rw [if_pos h]
      have hp : p.coordinate ax < sp.coordinate ax := by
        simpa [falls_on_left_child, split_value] using h
      refine ⟨?_, hR, ihl _ hl, hr⟩
      intro x hx
      rcases mem_points_insertAt hx with rfl | hx
      · exact hp
      · exact hL x hx
    · rw [if_neg h]
      have hp : sp.coordinate ax ≤ p.coordinate ax := by
        have : ¬ p.coordinate ax < sp.coordinate ax := by
          simpa [falls_on_left_child, split_value] using h
        exact le_of_not_lt this
      refine ⟨hL, ?_, hl, ihr _ hr⟩
      intro x hx
      rcases mem_points_insertAt hx with rfl | hx
      · exact hp
      · exact hR x hx

theorem axisBound_insertAt (N : ℕ) (p : Point) (axn : ℕ) (t : Kdtree)
    (hN : 0 < N) (haxn : axn < N) (ht : AxisBound N t) :
    AxisBound N (insertAt N p axn t) := by
  induction t generalizing axn with
  | nil => exact ⟨haxn, trivial, trivial⟩
  | node l r sp ax ihl ihr =>
    obtain ⟨hax, hl, hr⟩ := ht
    simp only [insertAt]
    by_cases h : falls_on_left_child sp ax p = true
    · rw [if_pos h]
      exact ⟨hax, ihl _ (Nat.mod_lt _ hN) hl, hr⟩
    · rw [if_neg h]
      exact ⟨hax, hl, ihr _ (Nat.mod_lt _ hN) hr⟩

theorem headAxisOk_insertAt (N : ℕ) (p : Point) (pax : ℕ) (t : Kdtree)
    (ht : headAxisOk N pax t) : headAxisOk N pax (insertAt N p ((pax + 1) % N) t) := by
  cases t with
  | nil => simp [insertAt, headAxisOk]
  | node l r sp ax =>
    simp only [insertAt]
    by_cases h : falls_on_left_child sp ax p = true
    · rw [if_pos h]; exact ht
    · rw [if_neg h]; exact ht

theorem axisCycle_insertAt (N : ℕ) (p : Point) (axn : ℕ) (t : Kdtree)
    (ht : AxisCycle N t) : AxisCycle N (insertAt N p axn t) := by
  induction t generalizing axn with
  | nil => exact ⟨trivial, trivial, trivial, trivial⟩
  | node l r sp ax ihl ihr =>
    obtain ⟨hhl, hhr, hcl, hcr⟩ := ht
    simp only [insertAt]
    by_cases h : falls_on_left_child sp ax p = true
    · rw [if_pos h]
      exact ⟨headAxisOk_insertAt N p ax l hhl, hhr, ihl _ hcl, hcr⟩
    · rw [if_neg h]
      exact ⟨hhl, headAxisOk_insertAt N p ax r hhr, hcl, ihr _ hcr⟩

end Kdtree

namespace Kdtree

theorem points_foldl_perm (N : ℕ) (ps : List Point) :
    ∀ t : Kdtree, ((ps.foldl (fun t p => insert N p t) t).points).Perm (ps ++ t.points) := by
  induction ps with
  | nil => intro t; simp
  | cons p ps ih =>
    intro t
    simp only [List.foldl_cons]
    refine (ih (insert N p t)).trans ?_
    refine List.Perm.trans (List.Perm.append_left ps (points_insertAt_perm N p 0 t)) ?_
    exact List.perm_middle

theorem points_buildTree_perm (N : ℕ) (p0 : Point) (ps : List Point) :
    ((buildTree N p0 ps).points).Perm (p0 :: ps) := by
  refine (points_foldl_perm N ps _).trans ?_
  simp only [points]
  simp

theorem size_buildTree (N : ℕ) (p0 : Point) (ps : List Point) :
    (buildTree N p0 ps).size = ps.length + 1 := by
  have h := (points_buildTree_perm N p0 ps).length_eq
  have hsz : ∀ t : Kdtree, t.points.length = t.size := by
    intro t
    induction t with
    | nil => simp [points, size]
    | node l r sp ax ihl ihr =>
      simp only [points, size, List.length_cons, List.length_append, ihl, ihr]
  rw [hsz] at h
  simpa using h

theorem partInv_buildTree (N : ℕ) (p0 : Point) (ps : List Point) :
    PartInv (buildTree N p0 ps) := by
  unfold buildTree
  have hroot : PartInv (node nil nil p0 0) := by simp [PartInv, points]
  clear hroot
  have : ∀ (qs : List Point) (t : Kdtree), PartInv t →
      PartInv (qs.foldl (fun t p => insert N p t) t) := by
    intro qs
    induction qs with
    | nil => intro t ht; simpa using ht
    | cons q qs ih =>
      intro t ht
      simp only [List.foldl_cons]
      exact ih _ (partInv_insertAt N q 0 t ht)
  exact this ps _ (by simp [PartInv, points])

theorem axisBound_buildTree (N : ℕ) (hN : 0 < N) (p0 : Point) (ps : List Point) :
    AxisBound N (buildTree N p0 ps) := by
  unfold buildTree
  have : ∀ (qs : List Point) (t : Kdtree), AxisBound N t →
      AxisBound N (qs.foldl (fun t p => insert N p t) t) := by
    intro qs
    induction qs with
    | nil => intro t ht; simpa using ht
    | cons q qs ih =>
      intro t ht
      simp only [List.foldl_cons]
      exact ih _ (axisBound_insertAt N q 0 t hN hN ht)
  exact this ps _ ⟨hN, trivial, trivial⟩

theorem axisCycle_buildTree (N : ℕ) (p0 : Point) (ps : List Point) :
    AxisCycle N (buildTree N p0 ps) := by
  unfold buildTree
  have : ∀ (qs : List Point) (t : Kdtree), AxisCycle N t →
      AxisCycle N (qs.foldl (fun t p => insert N p t) t) := by
    intro qs
    induction qs with
    | nil => intro t ht; simpa using ht
    | cons q qs ih =>
      intro t ht
      simp only [List.foldl_cons]
      exact ih _ (axisCycle_insertAt N q 0 t ht)
  exact this ps _ ⟨trivial, trivial, trivial, trivial⟩

theorem term_le_squared_distance (N : ℕ) (x q : Point) {ax : ℕ} (hax : ax < N) :
    (x.coordinate ax - q.coordinate ax) * (x.coordinate ax - q.coordinate ax) ≤
      squared_distance N x q := by
  unfold squared_distance
  exact Finset.single_le_sum
    (f := fun i => (x.coordinate i - q.coordinate i) * (x.coordinate i - q.coordinate i))
    (fun i _ => mul_self_nonneg _) (Finset.mem_range.mpr hax)

theorem coord_bounds_of_neighbor {N : ℕ} {x q : Point} {radius : ℚ} {ax : ℕ}
    (hr : 0 ≤ radius) (hax : ax < N)
    (hd : squared_distance N x q ≤ radius * radius) :
    q.coordinate ax - radius ≤ x.coordinate ax ∧
      x.coordinate ax ≤ q.coordinate ax + radius := by
  have ht := term_le_squared_distance N x q hax
  have h2 : (x.coordinate ax - q.coordinate ax) * (x.coordinate ax - q.coordinate ax) ≤
      radius * radius := le_trans ht hd
  constructor
  · nlinarith [h2, hr]
  · nlinarith [h2, hr]

end Kdtree

namespace Kdtree

theorem filter_points_eq_nil_left {N : ℕ} {q sp : Point} {radius : ℚ} {ax : ℕ} {l : Kdtree}
    (hr : 0 ≤ radius) (hax : ax < N)
    (hvisit : ¬ (intersects_line sp ax q radius || falls_on_left_child sp ax q) = true)
    (hL : ∀ x ∈ points l, x.coordinate ax < sp.coordinate ax) :
    l.points.filter (fun x => is_neighbor N x q radius) = [] := by
  rw [List.filter_eq_nil_iff]
  intro x hx
  simp only [Bool.or_eq_true, not_or] at hvisit
  obtain ⟨hint, hfall⟩ := hvisit
  simp only [intersects_line, split_value, decide_eq_true_eq] at hint
  simp only [falls_on_left_child, split_value, decide_eq_true_eq] at hfall
  have hsq : sp.coordinate ax ≤ q.coordinate ax := le_of_not_lt hfall
  simp only [is_neighbor, decide_eq_true_eq]
  intro hd
  have hbd := coord_bounds_of_neighbor hr hax hd
  have hxlt := hL x hx
  exact hint ⟨by linarith [hbd.1], by linarith⟩

theorem filter_points_eq_nil_right {N : ℕ} {q sp : Point} {radius : ℚ} {ax : ℕ} {r : Kdtree}
    (hr : 0 ≤ radius) (hax : ax < N)
    (hvisit : ¬ (intersects_line sp ax q radius || !falls_on_left_child sp ax q) = true)
    (hR : ∀ x ∈ points r, sp.coordinate ax ≤ x.coordinate ax) :
    r.points.filter (fun x => is_neighbor N x q radius) = [] := by
  rw [List.filter_eq_nil_iff]
  intro x hx
  simp only [Bool.or_eq_true, not_or, Bool.not_eq_true'] at hvisit
  obtain ⟨hint, hfall⟩ := hvisit
  simp only [intersects_line, split_value, decide_eq_true_eq] at hint
  have hq : q.coordinate ax < sp.coordinate ax := by
    simpa [falls_on_left_child, split_value] using hfall
  simp only [is_neighbor, decide_eq_true_eq]
  intro hd
  have hbd := coord_bounds_of_neighbor hr hax hd
  have hxge := hR x hx
  exact hint ⟨by linarith, by linarith [hbd.2]⟩

theorem get_nearby_points_eq_filter (N : ℕ) (q : Point) (radius : ℚ) (hr : 0 ≤ radius) :
    ∀ t : Kdtree, PartInv t → AxisBound N t →
      get_nearby_points N q radius t =
        t.points.filter fun x => is_neighbor N x q radius := by
  intro t
  induction t with
  | nil => intro _ _; simp [get_nearby_points, points]
  | node l r sp ax ihl ihr =>
    intro hp hb
    obtain ⟨hL, hR, hpl, hpr⟩ := hp
    obtain ⟨hax, hbl, hbr⟩ := hb
    have hLeq : (if intersects_line sp ax q radius || falls_on_left_child sp ax q then
        get_nearby_points N q radius l else []) =
        l.points.filter (fun x => is_neighbor N x q radius) := by
      by_cases h : (intersects_line sp ax q radius || falls_on_left_child sp ax q) = true
      · rw [if_pos h, ihl hpl hbl]
      · rw [if_neg h, filter_points_eq_nil_left hr hax h hL]
    have hReq : (if intersects_line sp ax q radius || !falls_on_left_child sp ax q then
        get_nearby_points N q radius r else []) =
        r.points.filter (fun x => is_neighbor N x q radius) := by
      by_cases h : (intersects_line sp ax q radius || !falls_on_left_child sp ax q) = true
      · rw [if_pos h, ihr hpr hbr]
      · rw [if_neg h, filter_points_eq_nil_right hr hax h hR]
    simp only [get_nearby_points, points, List.filter_cons, List.filter_append, hLeq, hReq]
    by_cases hs : is_neighbor N sp q radius = true
    · rw [if_pos hs, if_pos hs]; simp
    · rw [if_neg hs, if_neg hs]; simp

end Kdtree

namespace Kdtree

theorem squared_distance_eq_zero_iff {N : ℕ} {x q : Point} :
    squared_distance N x q = 0 ↔ ∀ i < N, x.coordinate i = q.coordinate i := by
  unfold squared_distance
  rw [Finset.sum_eq_zero_iff_of_nonneg (fun i _ => mul_self_nonneg _)]
  constructor
  · intro h i hi
    have := mul_self_eq_zero.mp (h i (Finset.mem_range.mpr hi))
    linarith [this]
  · intro h i hi
    rw [h i (Finset.mem_range.mp hi)]
    simp

theorem is_neighbor_zero {N : ℕ} {x q : Point}
    (hx : x.coords.length = N) (hq : q.coords.length = N) :
    is_neighbor N x q 0 = decide (x.coords = q.coords) := by
  have hnn : 0 ≤ squared_distance N x q :=
    Finset.sum_nonneg fun i _ => mul_self_nonneg _
  simp only [is_neighbor, mul_zero]
  rw [decide_eq_decide]
  constructor
  · intro h
    have h0 : squared_distance N x q = 0 := le_antisymm h hnn
    have hco := squared_distance_eq_zero_iff.mp h0
    refine List.ext_getElem (by rw [hx, hq]) ?_
    intro i h1 h2
    have hi : i < N := hx ▸ h1
    have hc := hco i hi
    rwa [Point.coordinate, Point.coordinate, List.getD_eq_getElem x.coords 0 h1,
      List.getD_eq_getElem q.coords 0 h2] at hc
  · intro h
    have h0 : squared_distance N x q = 0 := by
      refine squared_distance_eq_zero_iff.mpr ?_
      intro i _
      rw [Point.coordinate, Point.coordinate, h]
    exact le_of_eq h0

end Kdtree

namespace Kdtree

/-- Claim C1: for every point set inserted in any order (first point via the
constructor, the rest via `insert`), every query point and every radius
`r ≥ 0`, the multiset of points returned by `get_nearby_points` equals the
brute-force set of stored points at squared distance at most `r * r` from
the query (so a point at squared distance exactly `r * r` is included,
since `is_neighbor` compares with `≤`). -/
theorem range_query_matches_brute_force (N : ℕ) (p0 : Point) (ps : List Point)
    (q : Point) (r : ℚ) (hN : 0 < N) (hr : 0 ≤ r) :
    (get_nearby_points N q r (buildTree N p0 ps)).Perm
      ((p0 :: ps).filter fun x => is_neighbor N x q r) := by
  rw [get_nearby_points_eq_filter N q r hr _ (partInv_buildTree N p0 ps)
    (axisBound_buildTree N hN p0 ps)]
  exact (points_buildTree_perm N p0 ps).filter _

theorem range_query_matches_brute_force_witness :
    0 < 2 ∧ (0 : ℚ) ≤ 2 ∧
    (get_nearby_points 2 ⟨3, [0, 0]⟩ 2
        (buildTree 2 ⟨1, [0, 0]⟩ [⟨2, [1, 1]⟩, ⟨4, [5, 5]⟩])).Perm
      (([⟨1, [0, 0]⟩, ⟨2, [1, 1]⟩, ⟨4, [5, 5]⟩] : List Point).filter
        fun x => is_neighbor 2 x ⟨3, [0, 0]⟩ 2) :=
  ⟨by decide, by decide,
    range_query_matches_brute_force 2 ⟨1, [0, 0]⟩ [⟨2, [1, 1]⟩, ⟨4, [5, 5]⟩]
      ⟨3, [0, 0]⟩ 2 (by decide) (by decide)⟩

/-- Claim C2: every tree built by constructing from one point and applying
any sequence of `insert` calls satisfies the partition property at every
node (left subtree strictly below the node's point on the node's split
axis, right subtree at or above it), and it still holds after one more
`insert`. -/
theorem partition_invariant_holds (N : ℕ) (p0 : Point) (ps : List Point) (p : Point) :
    PartInv (buildTree N p0 ps) ∧ PartInv (insert N p (buildTree N p0 ps)) :=
  ⟨partInv_buildTree N p0 ps, partInv_insertAt N p 0 _ (partInv_buildTree N p0 ps)⟩

/-- Claim C3: inserting the same point multiset in two different orders
(each tree seeded from its first point) yields trees whose
`get_nearby_points` results agree, as multisets, for every query and every
radius `r ≥ 0`. -/
theorem insertion_order_invariance (N : ℕ) (p0 q0 : Point) (ps qs : List Point)
    (q : Point) (r : ℚ) (hN : 0 < N) (hr : 0 ≤ r)
    (hperm : (p0 :: ps).Perm (q0 :: qs)) :
    (get_nearby_points N q r (buildTree N p0 ps)).Perm
      (get_nearby_points N q r (buildTree N q0 qs)) := by
  rw [get_nearby_points_eq_filter N q r hr _ (partInv_buildTree N p0 ps)
      (axisBound_buildTree N hN p0 ps),
    get_nearby_points_eq_filter N q r hr _ (partInv_buildTree N q0 qs)
      (axisBound_buildTree N hN q0 qs)]
  exact (((points_buildTree_perm N p0 ps).trans hperm).trans
    (points_buildTree_perm N q0 qs).symm).filter _

theorem insertion_order_invariance_witness :
    0 < 2 ∧ (0 : ℚ) ≤ 2 ∧
    (([⟨1, [0, 0]⟩, ⟨2, [1, 1]⟩] : List Point)).Perm [⟨2, [1, 1]⟩, ⟨1, [0, 0]⟩] ∧
    (get_nearby_points 2 ⟨3, [0, 0]⟩ 2 (buildTree 2 ⟨1, [0, 0]⟩ [⟨2, [1, 1]⟩])).Perm
      (get_nearby_points 2 ⟨3, [0, 0]⟩ 2 (buildTree 2 ⟨2, [1, 1]⟩ [⟨1, [0, 0]⟩])) :=
  ⟨by decide, by decide, by decide,
    insertion_order_invariance 2 ⟨1, [0, 0]⟩ ⟨2, [1, 1]⟩ [⟨2, [1, 1]⟩] [⟨1, [0, 0]⟩]
      ⟨3, [0, 0]⟩ 2 (by decide) (by decide) (by decide)⟩

/-- Claim C4: for every tree, query point and radii `0 ≤ r1 ≤ r2`, the
result of `get_nearby_points` at radius `r1` is a sublist of the result at
radius `r2`: enlarging the radius never removes a point, result sets nest. -/
theorem radius_monotone (N : ℕ) (q : Point) (r1 r2 : ℚ) (t : Kdtree)
    (h0 : 0 ≤ r1) (h12 : r1 ≤ r2) :
    (get_nearby_points N q r1 t).Sublist (get_nearby_points N q r2 t) := by
  induction t with
  | nil => simp [get_nearby_points]
  | node l r sp ax ihl ihr =>
    simp only [get_nearby_points]
    have hint : intersects_line sp ax q r1 = true → intersects_line sp ax q r2 = true := by
      intro h
      simp only [intersects_line, decide_eq_true_eq] at h ⊢
      exact ⟨by linarith [h.1], by linarith [h.2]⟩
    have hself : (if is_neighbor N sp q r1 then [sp] else []).Sublist
        (if is_neighbor N sp q r2 then [sp] else []) := by
      by_cases h : is_neighbor N sp q r1 = true
      · have h2 : is_neighbor N sp q r2 = true := by
          simp only [is_neighbor, decide_eq_true_eq] at h ⊢
          nlinarith
        rw [if_pos h, if_pos h2]
      · rw [if_neg h]
        exact List.nil_sublist _
    have hleft : (if intersects_line sp ax q r1 || falls_on_left_child sp ax q then
        get_nearby_points N q r1 l else []).Sublist
        (if intersects_line sp ax q r2 || falls_on_left_child sp ax q then
          get_nearby_points N q r2 l else []) := by
      by_cases h : (intersects_line sp ax q r1 || falls_on_left_child sp ax q) = true
      · have h2 : (intersects_line sp ax q r2 || falls_on_left_child sp ax q) = true := by
          simp only [Bool.or_eq_true] at h ⊢
          rcases h with h | h
          · exact Or.inl (hint h)
          · exact Or.inr h
        rw [if_pos h, if_pos h2]
        exact ihl
      · rw [if_neg h]
        exact List.nil_sublist _
    have hright : (if intersects_line sp ax q r1 || !falls_on_left_child sp ax q then
        get_nearby_points N q r1 r else []).Sublist
        (if intersects_line sp ax q r2 || !falls_on_left_child sp ax q then
          get_nearby_points N q r2 r else []) := by
      by_cases h : (intersects_line sp ax q r1 || !falls_on_left_child sp ax q) = true
      · have h2 : (intersects_line sp ax q r2 || !falls_on_left_child sp ax q) = true := by
          simp only [Bool.or_eq_true] at h ⊢
          rcases h with h | h
          · exact Or.inl (hint h)
          · exact Or.inr h
        rw [if_pos h, if_pos h2]
        exact ihr
      · rw [if_neg h]
        exact List.nil_sublist _
    exact (hself.append hleft).append hright

theorem radius_monotone_witness :
    (0 : ℚ) ≤ 1 ∧ (1 : ℚ) ≤ 2 ∧
    (get_nearby_points 2 ⟨3, [0, 0]⟩ 1
        (node (node nil nil ⟨2, [1, 1]⟩ 1) nil ⟨1, [0, 0]⟩ 0)).Sublist
      (get_nearby_points 2 ⟨3, [0, 0]⟩ 2
        (node (node nil nil ⟨2, [1, 1]⟩ 1) nil ⟨1, [0, 0]⟩ 0)) :=
  ⟨by decide, by decide,
    radius_monotone 2 ⟨3, [0, 0]⟩ 1 2
      (node (node nil nil ⟨2, [1, 1]⟩ 1) nil ⟨1, [0, 0]⟩ 0) (by decide) (by decide)⟩

end Kdtree

namespace Kdtree

/-- Claim C5: for every built tree and query point, `get_nearby_points` at
radius 0 returns exactly the stored points whose coordinate vector equals
the query's (possibly several, possibly none), as a multiset, and no other
point. -/
theorem zero_radius_returns_coincident (N : ℕ) (p0 : Point) (ps : List Point)
    (q : Point) (hN : 0 < N) (hq : q.coords.length = N)
    (hps : ∀ x ∈ p0 :: ps, x.coords.length = N) :
    (get_nearby_points N q 0 (buildTree N p0 ps)).Perm
      ((p0 :: ps).filter fun x => decide (x.coords = q.coords)) := by
  rw [get_nearby_points_eq_filter N q 0 le_rfl _ (partInv_buildTree N p0 ps)
    (axisBound_buildTree N hN p0 ps)]
  have heq : (p0 :: ps).filter (fun x => is_neighbor N x q 0) =
      (p0 :: ps).filter (fun x => decide (x.coords = q.coords)) :=
    List.filter_congr fun x hx => is_neighbor_zero (hps x hx) hq
  exact heq ▸ ((points_buildTree_perm N p0 ps).filter _)

theorem zero_radius_returns_coincident_witness :
    0 < 2 ∧ ([0, 0] : List ℚ).length = 2 ∧
    (∀ x ∈ ([⟨1, [0, 0]⟩, ⟨2, [1, 1]⟩, ⟨3, [0, 0]⟩] : List Point), x.coords.length = 2) ∧
    (get_nearby_points 2 ⟨9, [0, 0]⟩ 0
        (buildTree 2 ⟨1, [0, 0]⟩ [⟨2, [1, 1]⟩, ⟨3, [0, 0]⟩])).Perm
      (([⟨1, [0, 0]⟩, ⟨2, [1, 1]⟩, ⟨3, [0, 0]⟩] : List Point).filter
        fun x => decide (x.coords = ([0, 0] : List ℚ))) :=
  ⟨by decide, by decide, by decide,
    zero_radius_returns_coincident 2 ⟨1, [0, 0]⟩ [⟨2, [1, 1]⟩, ⟨3, [0, 0]⟩]
      ⟨9, [0, 0]⟩ (by decide) (by decide) (by decide)⟩

/-- Claim C6: `insert` grows the tree by exactly one node holding the
inserted point and keeps every previously stored point, and a tree built
from `n` insertions (the root included) stores exactly `n` points. -/
theorem insert_growth (N : ℕ) (p0 : Point) (ps : List Point) (p : Point) :
    (buildTree N p0 ps).size = ps.length + 1 ∧
    (insert N p (buildTree N p0 ps)).size = (buildTree N p0 ps).size + 1 ∧
    ((insert N p (buildTree N p0 ps)).points).Perm (p :: (buildTree N p0 ps).points) :=
  ⟨size_buildTree N p0 ps, size_insertAt N p 0 _, points_insertAt_perm N p 0 _⟩

/-- Claim C7: in every tree built from the constructor (root split axis 0)
by any sequence of `insert` calls, every non-root node's split axis is its
parent's split axis plus one modulo `N`, and this is preserved by one more
`insert`. -/
theorem axis_cycling_invariant (N : ℕ) (p0 : Point) (ps : List Point) (p : Point) :
    AxisCycle N (buildTree N p0 ps) ∧ AxisCycle N (insert N p (buildTree N p0 ps)) :=
  ⟨axisCycle_buildTree N p0 ps, axisCycle_insertAt N p 0 _ (axisCycle_buildTree N p0 ps)⟩

/-- Claim C8: `get_nearby_points` leaves the tree completely unchanged:
threading the tree through the query as state returns it node for node as
it was, together with the same result list as the pure query. -/
theorem query_leaves_tree_unchanged (N : ℕ) (p : Point) (radius : ℚ) (t : Kdtree) :
    (get_nearby_points_st N p radius t).2 = t ∧
    (get_nearby_points_st N p radius t).1 = get_nearby_points N p radius t := by
  induction t with
  | nil => exact ⟨rfl, rfl⟩
  | node l r sp ax ihl ihr =>
    constructor
    · simp only [get_nearby_points_st, ihl.1, ihr.1, ite_self]
    · simp only [get_nearby_points_st, get_nearby_points, ihl.2, ihr.2]

/-- Claim C9: each node contributes its stored point to the query result at
most once, so the length of the returned list never exceeds the number of
nodes of the tree. -/
theorem result_length_le_size (N : ℕ) (p : Point) (radius : ℚ) (t : Kdtree) :
    (get_nearby_points N p radius t).length ≤ t.size := by
  induction t with
  | nil => simp [get_nearby_points, size]
  | node l r sp ax ihl ihr =>
    simp only [get_nearby_points, size, List.length_append]
    have h1 : (if is_neighbor N sp p radius then [sp] else []).length ≤ 1 := by
      split <;> simp
    have h2 : (if intersects_line sp ax p radius || falls_on_left_child sp ax p then
        get_nearby_points N p radius l else []).length ≤ l.size := by
      split
      · exact ihl
      · simp
    have h3 : (if intersects_line sp ax p radius || !falls_on_left_child sp ax p then
        get_nearby_points N p radius r else []).length ≤ r.size := by
      split
      · exact ihr
      · simp
    omega

/-- Claim C10: `get_nearby_points` is a function of the tree, query and
radius (two calls with equal arguments return identical lists), and on a
built tree with radius at least 0 the returned list is exactly the
depth-first preorder of the stored points (node's point, then the left
subtree, then the right subtree) filtered by the neighbor test, element
for element. -/
theorem query_deterministic_preorder (N : ℕ) (p0 : Point) (ps : List Point)
    (q : Point) (radius : ℚ) (hN : 0 < N) (hr : 0 ≤ radius) :
    get_nearby_points N q radius (buildTree N p0 ps) =
      ((buildTree N p0 ps).points).filter fun x => is_neighbor N x q radius :=
  get_nearby_points_eq_filter N q radius hr _ (partInv_buildTree N p0 ps)
    (axisBound_buildTree N hN p0 ps)

theorem query_deterministic_preorder_witness :
    0 < 2 ∧ (0 : ℚ) ≤ 2 ∧
    get_nearby_points 2 ⟨3, [0, 0]⟩ 2 (buildTree 2 ⟨1, [0, 0]⟩ [⟨2, [1, 1]⟩]) =
      ((buildTree 2 ⟨1, [0, 0]⟩ [⟨2, [1, 1]⟩]).points).filter
        (fun x => is_neighbor 2 x ⟨3, [0, 0]⟩ 2) :=
  ⟨by decide, by decide,
    query_deterministic_preorder 2 ⟨1, [0, 0]⟩ [⟨2, [1, 1]⟩] ⟨3, [0, 0]⟩ 2
      (by decide) (by decide)⟩

end Kdtree
